import Mathlib

/-!
Verification of the `proptree` Python binding of Boost.PropertyTree
(src/proptree/proptree.cpp) against its natural-language specification.

The data model is a shallow embedding of `boost::property_tree::ptree`:
a node is a data string together with an ordered list of (key, child)
pairs.  The Python-facing functions of proptree.cpp are translated into
pure Lean functions over this model; raising a Python exception is
modelled by an error value (`Except`, or a `Bool` flag paired with the
unchanged tree).  The Boost library itself is not part of the repository
sources; its tree primitives (`get_child`, `put_child`, `erase`, `count`,
`find`, `operator==`, the JSON writer) are modelled from the
specification, as marked on each definition.
-/

/-- A property-tree node: a value string and an ordered sequence of
(key, child) pairs.  Keys need not be unique. -/
inductive PTree : Type where
  | mk (data : String) (children : List (String × PTree))

/-- The value string of a node. -/
def PTree.data : PTree → String
  | .mk d _ => d

/-- The ordered children of a node. -/
def PTree.children : PTree → List (String × PTree)
  | .mk _ c => c

@[simp] theorem PTree.data_mk (d : String) (cs : List (String × PTree)) :
    (PTree.mk d cs).data = d := rfl

@[simp] theorem PTree.children_mk (d : String) (cs : List (String × PTree)) :
    (PTree.mk d cs).children = cs := rfl

theorem PTree.eta (t : PTree) : PTree.mk t.data t.children = t := by
  cases t; rfl

/-- Strong induction principle for `PTree`: to prove a property of every
node it suffices to prove it for a node assuming it for all its children. -/
def PTree.strongInd (P : PTree → Prop)
    (h : ∀ d cs, (∀ kc ∈ cs, P (Prod.snd kc)) → P (.mk d cs)) : ∀ t, P t
  | .mk d cs => h d cs (fun kc hm => PTree.strongInd P h kc.2)
termination_by t => sizeOf t
decreasing_by
  have h1 : sizeOf kc < sizeOf cs := List.sizeOf_lt_of_mem hm
  have h2 : sizeOf kc.2 < sizeOf kc := by
    obtain ⟨a, b⟩ := kc
    simp only [Prod.mk.sizeOf_spec]
    omega
  simp only [PTree.mk.sizeOf_spec]
  omega

/-- Modelled from the spec: the associative view's `find(key)` returns the
first child (in storage order) whose key equals `key` (spec section 4.3). -/
def findChild : List (String × PTree) → String → Option PTree
  | [], _ => none
  | (k, c) :: cs, s => if k = s then some c else findChild cs s

/-- Modelled from the spec: `count(key)` counts the direct children whose
key equals `key` (spec section 4.4). -/
def countKey : List (String × PTree) → String → Nat
  | [], _ => 0
  | (k, _) :: cs, s => (if k = s then 1 else 0) + countKey cs s

/-- Modelled from the spec: `erase(key)` removes all children whose key
equals `key` and counts them (spec section 4.4). -/
def eraseChildren : List (String × PTree) → String → Nat × List (String × PTree)
  | [], _ => (0, [])
  | (k, c) :: cs, s =>
    let r := eraseChildren cs s
    if k = s then (r.1 + 1, r.2) else (r.1, (k, c) :: r.2)

/-- Modelled from the spec: path strings are split into key segments at the
delimiter (default `.`, spec section 4.2); an empty path denotes the node
itself, and a trailing delimiter ends the path after the segment before it.
The accumulator holds the characters of the segment currently being read. -/
def splitSegs : List Char → List Char → List String
  | [], acc => [String.mk acc]
  | c :: cs, acc =>
    if c = '.' then
      match cs with
      | [] => [String.mk acc]
      | _ :: _ => String.mk acc :: splitSegs cs []
    else splitSegs cs (acc ++ [c])

/-- Modelled from the spec: the segments of a path string (empty path has
no segments and resolves to the node itself, spec section 4.2). -/
def segments (s : String) : List String :=
  if s.toList.isEmpty then [] else splitSegs s.toList []

/-- Modelled from the spec: `resolve` descends segment by segment, at each
step selecting the first child (in storage order) whose key matches the
segment, and fails if a segment matches no child (spec section 4.2). -/
def walkPath : PTree → List String → Option PTree
  | t, [] => some t
  | t, s :: rest =>
    match findChild t.children s with
    | none => none
    | some c => walkPath c rest

/-- Modelled from the spec: `get_child(path)` resolves the path from a node
(spec sections 4.2 and 4.4). -/
def get_child (t : PTree) (p : String) : Option PTree :=
  walkPath t (segments p)

/-- Apply `f` to the first child whose key equals `s`, leaving every
other child unchanged. -/
def replaceFirst : List (String × PTree) → String → (PTree → PTree) → List (String × PTree)
  | [], _, _ => []
  | (k, c) :: cs, s, f =>
    if k = s then (k, f c) :: cs else (k, c) :: replaceFirst cs s f

/-- Modelled from the spec: `createPath`/`put` descends like `resolve`,
at each step into the first child whose key matches the segment, creating
an empty child at the end of the child list when a segment has no
matching child, and at the final segment stores the given subtree there,
replacing the whole first same-keyed child if one exists (spec sections
4.2 and 4.4). -/
def putPath : PTree → List String → PTree → PTree
  | _, [], v => v
  | t, s :: rest, v =>
    match findChild t.children s with
    | none => .mk t.data (t.children ++ [(s, putPath (.mk "" []) rest v)])
    | some _ => .mk t.data (replaceFirst t.children s (fun c => putPath c rest v))

/-- Modelled from the spec: `put_child(path, subtree)` stores the subtree
at the path, creating missing ancestors (spec section 4.4). -/
def put_child (t : PTree) (p : String) (v : PTree) : PTree :=
  putPath t (segments p) v

/-- The claim's reading of one merge step: replace the whole first child
whose key equals `k` by `v`, appending `(k, v)` when no key matches. -/
def putTop : List (String × PTree) → String → PTree → List (String × PTree)
  | [], k, v => [(k, v)]
  | (k1, c) :: cs, k, v =>
    if k1 = k then (k1, v) :: cs else (k1, c) :: putTop cs k v

mutual

/-- Modelled from the spec: structural equality of nodes — value and
children recursively equal, order-sensitive (spec section 4.1). -/
def ptree_eq : PTree → PTree → Bool
  | .mk d cs, .mk e ds => (d = e) && childrenEq cs ds

/-- Pointwise structural equality of two child lists. -/
def childrenEq : List (String × PTree) → List (String × PTree) → Bool
  | [], [] => true
  | (k, c) :: cs, (l, d) :: ds => (k = l) && ptree_eq c d && childrenEq cs ds
  | _, _ => false

end

mutual

/-- Modelled from the spec: copying a node deep-copies the whole subtree
(spec section 3); this is `Tree.__copy__` building `new ptree(*obj)`. -/
def PTree.copy : PTree → PTree
  | .mk d cs => .mk d (copyChildren cs)

/-- Deep copy of a child list. -/
def copyChildren : List (String × PTree) → List (String × PTree)
  | [] => []
  | (k, c) :: cs => (k, PTree.copy c) :: copyChildren cs

end

/-- Modelled from the spec: boolean coercion of a stored value parses only
the strings "true" and "false" (spec section 4.4). -/
def parseBool (s : String) : Option Bool :=
  if s = "true" then some true else if s = "false" then some false else none

/-- The numeric value of a list of decimal digit characters. -/
def digitsVal (cs : List Char) : Nat :=
  cs.foldl (fun a c => a * 10 + (c.toNat - '0'.toNat)) 0

/-- Split a leading sign off a character list, returning whether the
number is negated and the remaining characters. -/
def takeSign : List Char → Bool × List Char
  | '-' :: cs => (true, cs)
  | '+' :: cs => (false, cs)
  | cs => (false, cs)

/-- Modelled from the spec: locale-free integer parsing of a stored value
into a C `long`: an optional sign, one or more decimal digits consuming
the whole string, and the value within the 64-bit signed range; anything
else fails with `BadData` (spec section 4.4). -/
def parseLong (s : String) : Option Int :=
  let (neg, cs) := takeSign s.toList
  if cs = [] ∨ ¬ cs.all Char.isDigit then none
  else
    let v : Int := if neg then -(digitsVal cs : Int) else (digitsVal cs : Int)
    if -(2 ^ 63) ≤ v ∧ v ≤ 2 ^ 63 - 1 then some v else none

/-- Multiply or divide a rational by a power of ten. -/
def scalePow10 (q : Rat) (e : Int) : Rat :=
  if 0 ≤ e then q * (10 : Rat) ^ e.toNat else q / (10 : Rat) ^ (-e).toNat

/-- Modelled from the spec: locale-free floating-point parsing of a stored
value: optional sign, decimal digits with an optional fractional part (at
least one digit overall), and an optional exponent part, consuming the
whole string; an exponent beyond the double range is an overflow failure
(spec section 4.4).  The numeric value is taken exactly: rounding to the
binary floating-point grid is abstracted away, which is sound here because
the claims depend only on whether the parse succeeds. -/
def parseDouble (s : String) : Option Rat :=
  let (neg, cs1) := takeSign s.toList
  let di := cs1.takeWhile Char.isDigit
  let cs2 := cs1.dropWhile Char.isDigit
  let fr : Option (List Char) × List Char :=
    match cs2 with
    | '.' :: r => (some (r.takeWhile Char.isDigit), r.dropWhile Char.isDigit)
    | _ => (none, cs2)
  let df := fr.1.getD []
  let cs3 := fr.2
  if di = [] ∧ df = [] then none
  else
    let mant : Rat := scalePow10 ((digitsVal (di ++ df) : Rat)) (-(df.length : Int))
    let mant := if neg then -mant else mant
    match cs3 with
    | [] => some mant
    | c :: r =>
      if c = 'e' ∨ c = 'E' then
        let (eneg, r1) := takeSign r
        if r1 = [] ∨ ¬ r1.all Char.isDigit then none
        else
          let ev : Int := if eneg then -(digitsVal r1 : Int) else (digitsVal r1 : Int)
          if ev > 400 ∨ ev < -400 then none else some (scalePow10 mant ev)
      else none

/-- A Python comparison operator, as passed to `tp_richcompare`. -/
inductive CmpOp : Type where
  | lt | le | eq | ne | ge | gt

/-- Evaluate a comparison operator on integers. -/
def evalCmpInt (op : CmpOp) (a b : Int) : Bool :=
  match op with
  | .lt => a < b
  | .le => a ≤ b
  | .eq => a = b
  | .ne => ¬ a = b
  | .ge => b ≤ a
  | .gt => b < a

/-- Evaluate a comparison operator on rationals. -/
def evalCmpRat (op : CmpOp) (a b : Rat) : Bool :=
  match op with
  | .lt => a < b
  | .le => a ≤ b
  | .eq => a = b
  | .ne => ¬ a = b
  | .ge => b ≤ a
  | .gt => b < a

/-- A scalar Python value as classified by `py_value_to_string`
(proptree.cpp): `None`, a bool, an int, a float (carrying the text that
`str()` produces for it, which CPython renders as locale-independent
decimal text), a string, or a value of any other type. -/
inductive PyVal : Type where
  | pyNone
  | pyBool (b : Bool)
  | pyInt (n : Int)
  | pyFloat (text : String)
  | pyStr (s : String)
  | pyOther

/-- `py_value_to_string` (proptree.cpp): stringify a scalar assigned into
a node; `None` becomes "none", booleans "true"/"false", numbers their
`str()` text, strings are taken verbatim, anything else is rejected. -/
def py_value_to_string : PyVal → Option String
  | .pyNone => some "none"
  | .pyBool b => some (if b then "true" else "false")
  | .pyInt n => some (toString n)
  | .pyFloat text => some text
  | .pyStr s => some s
  | .pyOther => none

/-- A value argument to `put`/`add`/`append`: either another tree or a
scalar. -/
inductive PyArg : Type where
  | tree (t : PTree)
  | scalar (v : PyVal)

/-- `Tree.put` (proptree.cpp): store a subtree or stringified scalar at
the given path.  The result pairs the updated tree with a flag that is
true exactly when `ValueError` was raised (in which case the tree is the
unchanged input). -/
def PyPropertyTree_put (t : PTree) (path : String) (v : PyArg) : PTree × Bool :=
  match v with
  | .tree u => (put_child t path u, false)
  | .scalar s =>
    match py_value_to_string s with
    | some str => (put_child t path (.mk str []), false)
    | none => (t, true)

/-- The loop of `Tree.remove` (proptree.cpp): erase the first child whose
key equals the argument, or report failure. -/
def removeLoop : List (String × PTree) → String → Option (List (String × PTree))
  | [], _ => none
  | (k, c) :: cs, s =>
    if k = s then some cs
    else (removeLoop cs s).map (fun r => (k, c) :: r)

/-- `Tree.remove` (proptree.cpp): erase the first child whose key equals
the argument; the flag is true exactly when `ValueError` was raised (in
which case the tree is the unchanged input). -/
def PyPropertyTree_remove (t : PTree) (s : String) : PTree × Bool :=
  match removeLoop t.children s with
  | some cs => (.mk t.data cs, false)
  | none => (t, true)

/-- The first loop of `Tree.index` (proptree.cpp): advance the iterator
until the running index reaches `start`, failing if the list is exhausted
first. -/
def advanceToStart (l : List (String × PTree)) (i : Int) (start : Int) :
    Option (List (String × PTree) × Int) :=
  if i < start then
    match l with
    | [] => none
    | _ :: r => advanceToStart r (i + 1) start
  else some (l, i)

/-- The second loop of `Tree.index` (proptree.cpp): scan for the first
child whose key equals the argument while the running index is below
`stop`, failing at the end of the range or of the list. -/
def scanToEnd (l : List (String × PTree)) (s : String) (i : Int) (stop : Int) :
    Except Unit Int :=
  if i < stop then
    match l with
    | [] => .error ()
    | (k, _) :: r => if k = s then .ok i else scanToEnd r s (i + 1) stop
  else .error ()

/-- `Tree.index` (proptree.cpp): the zero-based position of the first
child whose key equals the argument, within the index range
`[start, stop)` scanned by the two loops; `.error ()` is the raised
`ValueError`.  The caller-side default for `stop` is the number of
children. -/
def PyPropertyTree_index (t : PTree) (s : String) (start stop : Int) : Except Unit Int :=
  match advanceToStart t.children 0 start with
  | none => .error ()
  | some (l, i) => scanToEnd l s i stop

/-- The outcome of `Tree.get` (proptree.cpp): a reference to the child
node, the caller's default object returned unchanged, or a raised
`BadPathError`. -/
inductive GetOutcome : Type where
  | node (t : PTree)
  | dflt
  | badPath

/-- `Tree.get` (proptree.cpp): resolve the path; on `ptree_bad_path`
return the default if one was supplied and raise `BadPathError`
otherwise.  The tree is never modified. -/
def PyPropertyTree_get (t : PTree) (path : String) (hasDefault : Bool) : GetOutcome :=
  match get_child t path with
  | some c => .node c
  | none => if hasDefault then .dflt else .badPath

/-- `Tree.count` (proptree.cpp): the number of direct children with the
given key. -/
def PyPropertyTree_count (t : PTree) (s : String) : Nat :=
  countKey t.children s

/-- `Tree.erase` (proptree.cpp): erase all children with the given key,
returning the number erased and the updated tree. -/
def PyPropertyTree_erase (t : PTree) (s : String) : Nat × PTree :=
  ((eraseChildren t.children s).1, .mk t.data (eraseChildren t.children s).2)

/-- A scalar operand of `Tree.__tp_richcompare` of one of the three
parsed types: bool, int (a C `long`), or float. -/
inductive PyScalar : Type where
  | pyBool (b : Bool)
  | pyInt (n : Int)
  | pyFloat (q : Rat)

/-- Whether the stored value string parses as the operand's type. -/
def parsesAs (s : String) : PyScalar → Bool
  | .pyBool _ => (parseBool s).isSome
  | .pyInt _ => (parseLong s).isSome
  | .pyFloat _ => (parseDouble s).isSome

/-- The bool/int/float branches of `PyPropertyTree__tp_richcompare`
(proptree.cpp): every operator first coerces the stored value via
`get_value<bool/long/double>()`, so `ptree_bad_data` — modelled as
`.error ()` — is raised (as `BadDataError`) whenever the stored string
does not parse as the operand's type, for ordered and equality operators
alike; otherwise the comparison result is returned. -/
def richcompareScalar (t : PTree) (v : PyScalar) (op : CmpOp) : Except Unit Bool :=
  match v with
  | .pyBool b =>
    match parseBool t.data with
    | none => .error ()
    | some x => .ok (evalCmpInt op (if x then 1 else 0) (if b then 1 else 0))
  | .pyInt n =>
    match parseLong t.data with
    | none => .error ()
    | some x => .ok (evalCmpInt op x n)
  | .pyFloat q =>
    match parseDouble t.data with
    | none => .error ()
    | some x => .ok (evalCmpRat op x q)

/-- The tree-operand branch of `PyPropertyTree__tp_richcompare`
(proptree.cpp): `==`/`!=` compare structurally, other operators return
`NotImplemented` (modelled as `none`). -/
def richcompareTree (a b : PTree) (op : CmpOp) : Option Bool :=
  match op with
  | .eq => some (ptree_eq a b)
  | .ne => some (!ptree_eq a b)
  | _ => none

/-- `Tree.__copy__` (proptree.cpp): a deep copy of the whole subtree. -/
def PyPropertyTree__copy__ (t : PTree) : PTree :=
  PTree.copy t

/-- `PyPropertyTree__nb_or` (proptree.cpp), the non-mutating `a | b`:
copy `a`, then `put_child` each top-level child of `b` over the copy,
the child's key serving as the path. -/
def PyPropertyTree__nb_or (a b : PTree) : PTree :=
  b.children.foldl (fun t kc => put_child t kc.1 kc.2) (PTree.copy a)

/-- `PyPropertyTree__nb_inplace_or` (proptree.cpp), the mutating
`a |= b`: `put_child` each top-level child of `b` over `a` itself. -/
def PyPropertyTree__nb_inplace_or (a b : PTree) : PTree :=
  b.children.foldl (fun t kc => put_child t kc.1 kc.2) a

/-- The claim's literal reading of merge: replace the whole first
same-keyed top-level child of `a` by each of `b`'s children in turn
(appending when the key is absent), never interpreting keys as paths. -/
def claimMergeTop (a b : PTree) : PTree :=
  .mk a.data (b.children.foldl (fun cs kc => putTop cs kc.1 kc.2) a.children)

/-- Whether the first character list is a leading run of the second
(models matching a pattern at one position of `std::string::find`). -/
def prefB : List Char → List Char → Bool
  | [], _ => true
  | _ :: _, [] => false
  | a :: as, b :: bs => a = b && prefB as bs

/-- Whether the first character list occurs contiguously inside the
second (models `std::string::find(pattern) != npos`). -/
def infB : List Char → List Char → Bool
  | p, [] => p.isEmpty
  | p, b :: bs => prefB p (b :: bs) || infB p bs

/-- The operand of the membership test `x in tree`
(`PyPropertyTree__sq_contains`): a Python string, another tree, or a
value of any other type. -/
inductive ContainsArg : Type where
  | str (s : String)
  | tree (u : PTree)
  | other

/-- `PyPropertyTree__sq_contains` (proptree.cpp): a string is contained
if it equals some direct child's key or occurs as a substring of the
node's own value; a tree is contained if its value equals some direct
child's key; anything else is not contained. -/
def PyPropertyTree__sq_contains (t : PTree) (v : ContainsArg) : Bool :=
  match v with
  | .str s => (findChild t.children s).isSome || infB s.toList t.data.toList
  | .tree u => (findChild t.children u.data).isSome
  | .other => false

mutual

/-- Modelled from the spec: a node with both a non-empty value and at
least one child has no JSON representation, and the JSON writer checks
the whole tree for this before writing (spec section 4.5). -/
def verify_json : PTree → Bool
  | .mk d cs => (decide (d = "") || cs.isEmpty) && verifyChildren cs

/-- `verify_json` over a child list. -/
def verifyChildren : List (String × PTree) → Bool
  | [] => true
  | (_, c) :: cs => verify_json c && verifyChildren cs

end

/-- Escape a character for inclusion in a JSON string literal. -/
def escChar (c : Char) : List Char :=
  if c = '"' ∨ c = '\\' then ['\\', c] else [c]

/-- Escape a whole string for inclusion in a JSON string literal. -/
def jsonEscape (s : String) : String :=
  String.mk ((s.toList.map escChar).flatten)

/-- A quoted JSON string literal. -/
def jsonQuote (s : String) : String :=
  "\"" ++ jsonEscape s ++ "\""

mutual

/-- Modelled from the spec: render a verified node as JSON text — a
childless node as its value as a string literal, a node whose children
all have empty keys as an array, any other node as an object (spec
section 4.5; `pretty_print` affects only whitespace and is not
modelled). -/
def renderJson : PTree → String
  | .mk d [] => jsonQuote d
  | .mk _ (c :: cs) =>
    if ((c :: cs).map Prod.fst).all (fun k => k = "") then
      "[" ++ renderArray (c :: cs) ++ "]"
    else
      "\x7b" ++ renderObject (c :: cs) ++ "\x7d"

/-- Render array elements, comma-separated. -/
def renderArray : List (String × PTree) → String
  | [] => ""
  | [x] => renderJson x.2
  | x :: y :: xs => renderJson x.2 ++ "," ++ renderArray (y :: xs)

/-- Render object members, comma-separated. -/
def renderObject : List (String × PTree) → String
  | [] => ""
  | [x] => jsonQuote x.1 ++ ":" ++ renderJson x.2
  | x :: y :: xs => jsonQuote x.1 ++ ":" ++ renderJson x.2 ++ "," ++ renderObject (y :: xs)

end

/-- `dumps` (`property_tree_write_json`, proptree.cpp): translate a tree
to JSON text; the Boost writer raises `json_parser_error` — surfaced as
`JSONParserError` — exactly when the verification step rejects the tree. -/
def property_tree_write_json (t : PTree) : Except String String :=
  if verify_json t then .ok (renderJson t)
  else .error "ptree contains data that cannot be represented in JSON format"

/-! ### Helper lemmas -/

theorem findChild_isSome_iff (cs : List (String × PTree)) (s : String) :
    (findChild cs s).isSome = true ↔ ∃ c ∈ cs, c.1 = s := by
  induction cs with
  | nil => simp [findChild]
  | cons hd tl ih =>
    obtain ⟨k, c⟩ := hd
    by_cases hk : k = s <;> simp [findChild, hk, ih]

theorem findChild_eq_none_iff (cs : List (String × PTree)) (s : String) :
    findChild cs s = none ↔ ∀ c ∈ cs, c.1 ≠ s := by
  rw [← Option.not_isSome_iff_eq_none]
  rw [Bool.not_eq_true, ← Bool.not_eq_true, findChild_isSome_iff]
  push_neg
  rfl

theorem prefB_iff (p l : List Char) : prefB p l = true ↔ p <+: l := by
  induction p generalizing l with
  | nil => simp [prefB]
  | cons a as ih =>
    cases l with
    | nil => simp [prefB]
    | cons b bs =>
      by_cases hab : a = b
      · subst hab
        simp [prefB, ih, List.cons_prefix_cons]
      · simp [prefB, hab, List.cons_prefix_cons]

theorem infB_iff (p l : List Char) : infB p l = true ↔ p <:+: l := by
  induction l with
  | nil =>
    simp only [infB, List.isEmpty_iff, List.infix_nil]
  | cons b bs ih =>
    rw [show infB p (b :: bs) = (prefB p (b :: bs) || infB p bs) from rfl]
    rw [Bool.or_eq_true, prefB_iff, ih]
    constructor
    · rintro (h | h)
      · exact h.isInfix
      · exact h.trans (List.suffix_cons b bs).isInfix
    · intro h
      rcases List.infix_cons_iff.mp h with h | h
      · exact Or.inl h
      · exact Or.inr h

theorem eraseChildren_fst (cs : List (String × PTree)) (s : String) :
    (eraseChildren cs s).1 = countKey cs s := by
  induction cs with
  | nil => rfl
  | cons hd tl ih =>
    obtain ⟨k, c⟩ := hd
    by_cases hk : k = s <;> simp [eraseChildren, countKey, hk, ih] <;> omega

theorem eraseChildren_snd (cs : List (String × PTree)) (s : String) :
    (eraseChildren cs s).2 = cs.filter (fun c => !(c.1 = s)) := by
  induction cs with
  | nil => rfl
  | cons hd tl ih =>
    obtain ⟨k, c⟩ := hd
    by_cases hk : k = s <;> simp [eraseChildren, List.filter, hk, ih]

theorem countKey_eq_zero_iff (cs : List (String × PTree)) (s : String) :
    countKey cs s = 0 ↔ ∀ c ∈ cs, c.1 ≠ s := by
  induction cs with
  | nil => simp [countKey]
  | cons hd tl ih =>
    obtain ⟨k, c⟩ := hd
    by_cases hk : k = s <;> simp [countKey, hk, ih]

theorem countKey_filter_ne (cs : List (String × PTree)) (s : String) :
    countKey (cs.filter (fun c => !(c.1 = s))) s = 0 := by
  rw [countKey_eq_zero_iff]
  intro c hc
  have := List.of_mem_filter hc
  simpa using this

theorem removeLoop_eq_none_iff (cs : List (String × PTree)) (s : String) :
    removeLoop cs s = none ↔ ∀ c ∈ cs, c.1 ≠ s := by
  induction cs with
  | nil => simp [removeLoop]
  | cons hd tl ih =>
    obtain ⟨k, c⟩ := hd
    by_cases hk : k = s <;> simp [removeLoop, hk, ih]

theorem removeLoop_first_match (cs : List (String × PTree)) (s : String) (i : Nat)
    (hmem : ∃ c, cs.get? i = some c ∧ c.1 = s)
    (hfirst : ∀ j < i, ∀ c, cs.get? j = some c → c.1 ≠ s) :
    removeLoop cs s = some (cs.eraseIdx i) := by
  induction cs generalizing i with
  | nil => simp at hmem
  | cons hd tl ih =>
    obtain ⟨k, c⟩ := hd
    cases i with
    | zero =>
      obtain ⟨c', hc', hs⟩ := hmem
      simp at hc'
      subst hc'
      simp at hs
      simp [removeLoop, hs, List.eraseIdx]
    | succ j =>
      have hk : k ≠ s := by
        have := hfirst 0 (Nat.succ_pos j) (k, c) (by simp)
        simpa using this
      have hih := ih j (by simpa using hmem)
        (fun j' hj' c' hc' => hfirst (j' + 1) (by omega) c' (by simpa using hc'))
      simp [removeLoop, hk, hih, List.eraseIdx]

theorem copyChildren_congr (cs : List (String × PTree))
    (h : ∀ kc ∈ cs, PTree.copy kc.2 = kc.2) : copyChildren cs = cs := by
  induction cs with
  | nil => rfl
  | cons hd tl ih =>
    obtain ⟨k, c⟩ := hd
    rw [copyChildren, h (k, c) (by simp), ih (fun kc hkc => h kc (by simp [hkc]))]

theorem copy_eq_self (t : PTree) : PTree.copy t = t := by
  induction t using PTree.strongInd with
  | h d cs ih => rw [PTree.copy, copyChildren_congr cs ih]

theorem childrenEq_refl (cs : List (String × PTree))
    (h : ∀ kc ∈ cs, ptree_eq kc.2 kc.2 = true) : childrenEq cs cs = true := by
  induction cs with
  | nil => rfl
  | cons hd tl ih =>
    obtain ⟨k, c⟩ := hd
    have h1 := h (k, c) (by simp)
    have h2 := ih (fun kc hkc => h kc (by simp [hkc]))
    simp [childrenEq, h1, h2]

theorem ptree_eq_refl (t : PTree) : ptree_eq t t = true := by
  induction t using PTree.strongInd with
  | h d cs ih => simp [ptree_eq, childrenEq_refl cs ih]

theorem mk_toList (s : String) : String.mk s.toList = s := by
  cases s
  rfl

theorem splitSegs_noDot (cs acc : List Char) (h : ∀ c ∈ cs, c ≠ '.') :
    splitSegs cs acc = [String.mk (acc ++ cs)] := by
  induction cs generalizing acc with
  | nil => simp [splitSegs]
  | cons c cs ih =>
    have hc : c ≠ '.' := h c (by simp)
    show (if c = '.' then _ else splitSegs cs (acc ++ [c])) = _
    rw [if_neg hc, ih (acc ++ [c]) (fun c' hc' => h c' (by simp [hc']))]
    simp

theorem segments_noDot (k : String) (hne : k ≠ "") (h : ∀ c ∈ k.toList, c ≠ '.') :
    segments k = [k] := by
  have hlist : ¬ k.toList.isEmpty = true := by
    simp only [List.isEmpty_iff]
    intro habs
    apply hne
    rw [← mk_toList k, habs]
  rw [segments, if_neg hlist, splitSegs_noDot _ _ h, List.nil_append, mk_toList]

theorem putPath_data (t : PTree) (s : String) (rest : List String) (v : PTree) :
    (putPath t (s :: rest) v).data = t.data := by
  rw [putPath]
  cases findChild t.children s <;> simp

theorem findChild_replaceFirst (cs : List (String × PTree)) (s : String)
    (f : PTree → PTree) (c : PTree) (h : findChild cs s = some c) :
    findChild (replaceFirst cs s f) s = some (f c) := by
  induction cs with
  | nil => simp [findChild] at h
  | cons hd tl ih =>
    obtain ⟨k, c'⟩ := hd
    by_cases hk : k = s
    · simp [findChild, hk] at h
      subst h
      simp [replaceFirst, findChild, hk]
    · simp [findChild, hk] at h
      simp [replaceFirst, findChild, hk, ih h]

theorem findChild_append_single (cs : List (String × PTree)) (s : String) (x : PTree)
    (h : findChild cs s = none) :
    findChild (cs ++ [(s, x)]) s = some x := by
  induction cs with
  | nil => simp [findChild]
  | cons hd tl ih =>
    obtain ⟨k, c'⟩ := hd
    by_cases hk : k = s
    · simp [findChild, hk] at h
    · simp [findChild, hk] at h
      simp [findChild, hk, ih h]

theorem walkPath_putPath (segs : List String) (t v : PTree) :
    walkPath (putPath t segs v) segs = some v := by
  induction segs generalizing t with
  | nil => rfl
  | cons s rest ih =>
    rw [putPath]
    cases h : findChild t.children s with
    | none =>
      rw [walkPath]
      simp only [PTree.children_mk]
      rw [findChild_append_single _ _ _ h]
      exact ih _
    | some c =>
      rw [walkPath]
      simp only [PTree.children_mk]
      rw [findChild_replaceFirst _ _ _ _ h]
      exact ih _

theorem get_child_put_child (t v : PTree) (p : String) :
    get_child (put_child t p v) p = some v := by
  rw [get_child, put_child]
  exact walkPath_putPath _ _ _

theorem putTop_cases (cs : List (String × PTree)) (k : String) (v : PTree) :
    putTop cs k v =
      match findChild cs k with
      | none => cs ++ [(k, v)]
      | some _ => replaceFirst cs k (fun _ => v) := by
  induction cs with
  | nil => simp [putTop, findChild]
  | cons hd tl ih =>
    obtain ⟨k1, c⟩ := hd
    by_cases hk : k1 = k
    · simp [putTop, findChild, replaceFirst, hk]
    · simp only [putTop, findChild, replaceFirst, hk, if_neg, if_false, ih]
      cases findChild tl k <;> simp [hk]

theorem putPath_single (t : PTree) (k : String) (v : PTree) :
    putPath t [k] v = .mk t.data (putTop t.children k v) := by
  rw [putPath, putTop_cases]
  cases findChild t.children k <;> simp [putPath]

theorem foldPut_top (cs : List (String × PTree)) (t : PTree)
    (h : ∀ kc ∈ cs, kc.1 ≠ "" ∧ ∀ ch ∈ kc.1.toList, ch ≠ '.') :
    cs.foldl (fun u kc => put_child u kc.1 kc.2) t =
      .mk t.data (cs.foldl (fun l kc => putTop l kc.1 kc.2) t.children) := by
  induction cs generalizing t with
  | nil => simp [PTree.eta]
  | cons hd tl ih =>
    obtain ⟨k, v⟩ := hd
    obtain ⟨hne, hdot⟩ := h (k, v) (by simp)
    have hstep : put_child t k v = PTree.mk t.data (putTop t.children k v) := by
      rw [put_child, segments_noDot k hne hdot, putPath_single]
    simp only [List.foldl_cons, hstep]
    rw [ih _ (fun kc hkc => h kc (by simp [hkc]))]
    simp

/-- The specification-level path-resolution relation: `Resolves t segs u`
holds when descending from `t` through the segment list, at each step
into the first child (in storage order) whose key equals the segment,
reaches `u` (spec section 4.2). -/
inductive Resolves : PTree → List String → PTree → Prop where
  | nil (t : PTree) : Resolves t [] t
  | cons (t : PTree) (s : String) (rest : List String) (c u : PTree) :
      findChild t.children s = some c → Resolves c rest u →
      Resolves t (s :: rest) u

theorem walkPath_iff_resolves (t u : PTree) (segs : List String) :
    walkPath t segs = some u ↔ Resolves t segs u := by
  induction segs generalizing t with
  | nil =>
    simp only [walkPath, Option.some_inj]
    constructor
    · rintro rfl
      exact .nil t
    · rintro h
      cases h
      rfl
  | cons s rest ih =>
    rw [walkPath]
    cases h : findChild t.children s with
    | none =>
      simp only [false_iff, reduceCtorEq]
      intro habs
      cases habs with
      | cons _ _ _ c _ hfind _ => rw [h] at hfind; exact Option.noConfusion hfind
    | some c =>
      rw [ih c]
      constructor
      · intro hr
        exact .cons t s rest c u h hr
      · intro hr
        cases hr with
        | cons _ _ _ c' _ hfind hrest =>
          rw [h] at hfind
          cases hfind
          exact hrest

/-- The tree contains a node (itself or a descendant) with both a
non-empty value and at least one child — the shapes that JSON cannot
represent (spec section 4.5). -/
inductive HasBadNode : PTree → Prop where
  | here (d : String) (cs : List (String × PTree)) :
      d ≠ "" → cs ≠ [] → HasBadNode (.mk d cs)
  | there (d : String) (cs : List (String × PTree)) (kc : String × PTree) :
      kc ∈ cs → HasBadNode kc.2 → HasBadNode (.mk d cs)

theorem verifyChildren_false_of_mem (cs : List (String × PTree))
    (kc : String × PTree) (hmem : kc ∈ cs) (h : verify_json kc.2 = false) :
    verifyChildren cs = false := by
  induction cs with
  | nil => simp at hmem
  | cons hd tl ih =>
    rcases List.mem_cons.mp hmem with rfl | hmem'
    · obtain ⟨k, c⟩ := kc
      simp [verifyChildren, h]
    · obtain ⟨k, c⟩ := hd
      simp [verifyChildren, ih hmem']

theorem verifyChildren_false_exists (cs : List (String × PTree))
    (h : verifyChildren cs = false) :
    ∃ kc ∈ cs, verify_json kc.2 = false := by
  induction cs with
  | nil => simp [verifyChildren] at h
  | cons hd tl ih =>
    obtain ⟨k, c⟩ := hd
    rw [verifyChildren, Bool.and_eq_false_iff] at h
    rcases h with h | h
    · exact ⟨(k, c), by simp, h⟩
    · obtain ⟨kc, hkc, hbad⟩ := ih h
      exact ⟨kc, by simp [hkc], hbad⟩

theorem verify_json_false_iff (t : PTree) :
    verify_json t = false ↔ HasBadNode t := by
  induction t using PTree.strongInd with
  | h d cs ih =>
    constructor
    · intro h
      rw [verify_json, Bool.and_eq_false_iff] at h
      rcases h with h | h
      · rw [Bool.or_eq_false_iff] at h
        obtain ⟨h1, h2⟩ := h
        refine HasBadNode.here d cs (by simpa using h1) ?_
        simpa [List.isEmpty_iff] using h2
      · obtain ⟨kc, hkc, hbad⟩ := verifyChildren_false_exists cs h
        exact HasBadNode.there d cs kc hkc ((ih kc hkc).mp hbad)
    · intro h
      cases h with
      | here _ _ h1 h2 =>
        rw [verify_json, Bool.and_eq_false_iff]
        left
        rw [Bool.or_eq_false_iff]
        exact ⟨by simpa using h1, by simpa [List.isEmpty_iff] using h2⟩
      | there _ _ kc hkc hbad =>
        rw [verify_json, Bool.and_eq_false_iff]
        right
        exact verifyChildren_false_of_mem cs kc hkc ((ih kc hkc).mpr hbad)

theorem advanceToStart_done (l : List (String × PTree)) (i a : Int) (h : a ≤ i) :
    advanceToStart l i a = some (l, i) := by
  rw [advanceToStart.eq_def, if_neg (by omega)]

theorem advanceToStart_drop (d : Nat) (l : List (String × PTree)) (i : Int) :
    advanceToStart l i (i + d) =
      if d ≤ l.length then some (l.drop d, i + d) else none := by
  induction d generalizing l i with
  | zero =>
    rw [advanceToStart_done l i (i + ((0 : Nat) : Int)) (by push_cast; omega)]
    simp
  | succ d ih =>
    rw [advanceToStart.eq_def, if_pos (by push_cast; omega)]
    cases l with
    | nil => simp
    | cons c r =>
      have harg : i + (((d : Nat) + 1 : Nat) : Int) = (i + 1) + (d : Int) := by
        push_cast
        omega
      rw [harg]
      show advanceToStart r (i + 1) (i + 1 + (d : Int)) = _
      rw [ih r (i + 1)]
      by_cases hlen : d ≤ r.length
      · rw [if_pos hlen, if_pos (by simp; omega)]
        simp
      · rw [if_neg hlen, if_neg (by simp; omega)]

theorem except_error_iff_no_ok {α : Type} (e : Except Unit α) :
    e = .error () ↔ ∀ a, ¬ e = .ok a := by
  cases e <;> simp

theorem scanToEnd_ok_iff (l : List (String × PTree)) (s : String) (i b n : Int) :
    scanToEnd l s i b = .ok n ↔
      ∃ m : Nat, n = i + m ∧ i + m < b ∧
        (∃ c, l[m]? = some c ∧ c.1 = s) ∧
        (∀ j < m, ∀ c, l[j]? = some c → c.1 ≠ s) := by
  induction l generalizing i with
  | nil => simp [scanToEnd]
  | cons hd r ih =>
    obtain ⟨k, c0⟩ := hd
    rw [scanToEnd]
    by_cases hib : i < b
    · rw [if_pos hib]
      by_cases hks : k = s
      · rw [if_pos hks]
        constructor
        · intro h
          have hn : n = i := by
            cases h
            rfl
          refine ⟨0, by omega, by push_cast; omega, ⟨(k, c0), by simp, hks⟩, by omega⟩
        · rintro ⟨m, hn, hlt, ⟨c, hget, hcs⟩, hmin⟩
          have hm0 : m = 0 := by
            by_contra hm
            exact hmin 0 (by omega) (k, c0) (by simp) hks
          subst hm0
          simp only [Nat.cast_zero, Int.add_zero] at hn
          rw [hn]
      · rw [if_neg hks, ih (i + 1)]
        constructor
        · rintro ⟨m, hn, hlt, ⟨c, hget, hcs⟩, hmin⟩
          refine ⟨m + 1, by push_cast; omega, by push_cast at hlt ⊢; omega,
            ⟨c, by simpa using hget, hcs⟩, ?_⟩
          intro j hj c' hget' hcs'
          cases j with
          | zero =>
            simp only [List.getElem?_cons_zero, Option.some_inj] at hget'
            apply hks
            rw [← hget'] at hcs'
            exact hcs'
          | succ j' =>
            simp only [List.getElem?_cons_succ] at hget'
            exact hmin j' (by omega) c' hget' hcs'
        · rintro ⟨m, hn, hlt, ⟨c, hget, hcs⟩, hmin⟩
          cases m with
          | zero =>
            simp only [List.getElem?_cons_zero, Option.some_inj] at hget
            apply absurd hks
            simp only [not_not]
            rw [← hget] at hcs
            exact hcs
          | succ m' =>
            refine ⟨m', by push_cast at hn ⊢; omega, by push_cast at hlt ⊢; omega,
              ⟨c, by simpa using hget, hcs⟩, ?_⟩
            intro j hj c' hget' hcs'
            exact hmin (j + 1) (by omega) c' (by simpa using hget') hcs'
    · rw [if_neg hib]
      constructor
      · intro h
        exact absurd h (by simp)
      · rintro ⟨m, hn, hlt, _, _⟩
        omega

theorem exists_least {Q : Nat → Prop} (h : ∃ m, Q m) : ∃ m, Q m ∧ ∀ j < m, ¬ Q j := by
  obtain ⟨m, hm⟩ := h
  induction m using Nat.strong_induction_on with
  | _ m ih =>
    by_cases hex : ∃ j < m, Q j
    · obtain ⟨j, hj, hQ⟩ := hex
      exact ih j hj hQ
    · push_neg at hex
      exact ⟨m, hm, hex⟩

theorem index_ok_char (t : PTree) (s : String) (a b n : Int) :
    PyPropertyTree_index t s a b = .ok n ↔
      ∃ m : Nat, n = m ∧ a ≤ (m : Int) ∧ (m : Int) < b ∧
        (∃ c, t.children[m]? = some c ∧ c.1 = s) ∧
        (∀ j < m, a ≤ (j : Int) → ∀ c, t.children[j]? = some c → c.1 ≠ s) := by
  rw [PyPropertyTree_index]
  by_cases ha : a ≤ 0
  · rw [advanceToStart_done _ 0 a ha]
    show scanToEnd t.children s 0 b = .ok n ↔ _
    rw [scanToEnd_ok_iff]
    constructor
    · rintro ⟨m, hn, hlt, hmatch, hmin⟩
      exact ⟨m, by omega, by omega, by omega, hmatch, fun j hj _ => hmin j hj⟩
    · rintro ⟨m, hn, _, hlt, hmatch, hmin⟩
      exact ⟨m, by omega, by omega, hmatch, fun j hj => hmin j hj (by omega)⟩
  · obtain ⟨d, rfl⟩ : ∃ d : Nat, a = (d : Int) := ⟨a.toNat, by omega⟩
    have hd0 : 0 < d := by omega
    have hadv := advanceToStart_drop d t.children 0
    rw [zero_add] at hadv
    rw [hadv]
    by_cases hlen : d ≤ t.children.length
    · rw [if_pos hlen]
      show scanToEnd (t.children.drop d) s d b = .ok n ↔ _
      rw [scanToEnd_ok_iff]
      constructor
      · rintro ⟨m, hn, hlt, ⟨c, hget, hcs⟩, hmin⟩
        refine ⟨d + m, by push_cast; push_cast at hn; omega, by push_cast; omega,
          by push_cast; push_cast at hlt; omega,
          ⟨c, by rw [← List.getElem?_drop]; exact hget, hcs⟩, ?_⟩
        intro j hj haj c' hget' hcs'
        have hdj : d ≤ j := by omega
        obtain ⟨j', rfl⟩ : ∃ j' : Nat, j = d + j' := ⟨j - d, by omega⟩
        refine hmin j' (by omega) c' ?_ hcs'
        rw [List.getElem?_drop]
        exact hget'
      · rintro ⟨m, hn, ham, hmb, ⟨c, hget, hcs⟩, hmin⟩
        have hdm : d ≤ m := by
          have := ham
          omega
        obtain ⟨m', rfl⟩ : ∃ m' : Nat, m = d + m' := ⟨m - d, by omega⟩
        refine ⟨m', by push_cast; push_cast at hn; omega, by push_cast; push_cast at hmb; omega,
          ⟨c, by rw [List.getElem?_drop]; exact hget, hcs⟩, ?_⟩
        intro j' hj' c' hget' hcs'
        refine hmin (d + j') (by omega) (by push_cast; omega) c' ?_ hcs'
        rw [← List.getElem?_drop]
        exact hget'
    · rw [if_neg hlen]
      constructor
      · intro h
        exact absurd h (by simp)
      · rintro ⟨m, hn, ham, hmb, ⟨c, hget, hcs⟩, hmin⟩
        have hnone : t.children[m]? = none := by
          apply List.getElem?_eq_none
          omega
        rw [hnone] at hget
        exact Option.noConfusion hget

theorem index_err_char (t : PTree) (s : String) (a b : Int) :
    PyPropertyTree_index t s a b = .error () ↔
      ¬ ∃ m : Nat, a ≤ (m : Int) ∧ (m : Int) < b ∧
        ∃ c, t.children[m]? = some c ∧ c.1 = s := by
  rw [except_error_iff_no_ok]
  constructor
  · intro h hex
    obtain ⟨m, ⟨ham, hmb, hmatch⟩, hmin⟩ :=
      exists_least (Q := fun m => a ≤ (m : Int) ∧ (m : Int) < b ∧
        ∃ c, t.children[m]? = some c ∧ c.1 = s) hex
    apply h m
    rw [index_ok_char]
    refine ⟨m, rfl, ham, hmb, hmatch, ?_⟩
    intro j hj haj c hget hcs
    exact hmin j hj ⟨haj, by omega, c, hget, hcs⟩
  · intro h n hok
    rw [index_ok_char] at hok
    obtain ⟨m, _, ham, hmb, hmatch, _⟩ := hok
    exact h ⟨m, ham, hmb, hmatch⟩

/-! ### Claim theorems -/

/-- C1 (counterexample): the claim says `remove(v)` removes the first
child whose VALUE equals `v` and raises `ValueError` only when no child's
value equals `v`.  On the tree with the single child `("k", value "v")`,
a child's value does equal "v", yet `remove("v")` raises `ValueError`
and leaves the tree unchanged, because the code matches the argument
against child KEYS (`iter->first`), not values. -/
theorem C1_remove_counterexample :
    PyPropertyTree_remove (PTree.mk "" [("k", PTree.mk "v" [])]) "v" =
      (PTree.mk "" [("k", PTree.mk "v" [])], true) ∧
    ∃ c ∈ (PTree.mk "" [("k", PTree.mk "v" [])]).children, c.2.data = "v" :=
  ⟨rfl, ("k", PTree.mk "v" []), by simp, rfl⟩

/-- C1 (amended): for every tree and string `v`, `remove(v)` removes
exactly the first child (in storage order) whose KEY equals `v`, leaving
all other children unchanged, and raises `ValueError` when no child's key
equals `v` (in which case the tree is unchanged). -/
theorem C1_remove_amended (t : PTree) (s : String) :
    ((∀ c ∈ t.children, c.1 ≠ s) → PyPropertyTree_remove t s = (t, true)) ∧
    (∀ i : Nat, (∃ c, t.children.get? i = some c ∧ c.1 = s) →
      (∀ j < i, ∀ c, t.children.get? j = some c → c.1 ≠ s) →
      PyPropertyTree_remove t s = (.mk t.data (t.children.eraseIdx i), false)) := by
  constructor
  · intro h
    rw [PyPropertyTree_remove, (removeLoop_eq_none_iff t.children s).mpr h]
  · intro i hmem hfirst
    rw [PyPropertyTree_remove, removeLoop_first_match t.children s i hmem hfirst]

/-- C1 (witness): removing key "a" from a tree whose first child is keyed
"a" erases exactly that child. -/
theorem C1_remove_witness :
    PyPropertyTree_remove (PTree.mk "" [("a", PTree.mk "x" [])]) "a" =
      (PTree.mk "" [], false) := by
  have h := (C1_remove_amended (PTree.mk "" [("a", PTree.mk "x" [])]) "a").2 0
    ⟨("a", PTree.mk "x" []), rfl, rfl⟩ (by omega)
  simpa using h

/-- C2 (counterexample): the claim says `index(v, start, end)` returns
the position of the first child in range whose VALUE equals `v`.  On the
tree with the single child `("k", value "v")`, child 0 has value "v" and
lies in the range `[0, 1)`, yet `index("v", 0, 1)` raises `ValueError`,
because the code matches the argument against child KEYS. -/
theorem C2_index_counterexample :
    PyPropertyTree_index (PTree.mk "" [("k", PTree.mk "v" [])]) "v" 0 1 = .error () ∧
    ∃ c ∈ (PTree.mk "" [("k", PTree.mk "v" [])]).children, c.2.data = "v" :=
  ⟨rfl, ("k", PTree.mk "v" []), by simp, rfl⟩

/-- C2 (amended): for every tree, string `v` and bounds `start`, `end`,
`index(v, start, end)` returns the zero-based position of the first child
in the range `[start, end)` whose KEY equals `v`, performs no mutation
(the model returns only a position), and raises `ValueError` when no
child in that range has key `v`. -/
theorem C2_index_amended (t : PTree) (s : String) (a b : Int) :
    (∀ n : Int, PyPropertyTree_index t s a b = .ok n ↔
      ∃ m : Nat, n = m ∧ a ≤ (m : Int) ∧ (m : Int) < b ∧
        (∃ c, t.children[m]? = some c ∧ c.1 = s) ∧
        (∀ j < m, a ≤ (j : Int) → ∀ c, t.children[j]? = some c → c.1 ≠ s)) ∧
    (PyPropertyTree_index t s a b = .error () ↔
      ¬ ∃ m : Nat, a ≤ (m : Int) ∧ (m : Int) < b ∧
        ∃ c, t.children[m]? = some c ∧ c.1 = s) :=
  ⟨fun n => index_ok_char t s a b n, index_err_char t s a b⟩

/-- C2 (witness): on a one-child tree keyed "a", `index("a", 0, 1)`
returns position 0. -/
theorem C2_index_witness :
    PyPropertyTree_index (PTree.mk "" [("a", PTree.mk "1" [])]) "a" 0 1 = .ok 0 := by
  apply ((C2_index_amended (PTree.mk "" [("a", PTree.mk "1" [])]) "a" 0 1).1 0).mpr
  exact ⟨0, by norm_num, by norm_num, by norm_num, ⟨("a", PTree.mk "1" []), rfl, rfl⟩,
    by omega⟩

/-- C3 (counterexample): the claim says an equality comparison against a
value whose type the stored string cannot parse does not raise and
evaluates as false; but comparing the node with value "abc" to the
integer 5 with `==` raises `BadDataError`, because the int branch calls
`get_value<long>()` for every operator. -/
theorem C3_compare_counterexample :
    richcompareScalar (PTree.mk "abc" []) (.pyInt 5) .eq = .error () := rfl

/-- C3 (amended): for every tree node and every boolean, integer, or
float operand, EVERY comparison operator — ordered, equality and
inequality alike — raises `BadData` exactly when the node's stored value
string does not parse as the operand's type. -/
theorem C3_compare_amended (t : PTree) (v : PyScalar) (op : CmpOp) :
    richcompareScalar t v op = .error () ↔ parsesAs t.data v = false := by
  cases v with
  | pyBool b => cases h : parseBool t.data <;> simp [richcompareScalar, parsesAs, h]
  | pyInt n => cases h : parseLong t.data <;> simp [richcompareScalar, parsesAs, h]
  | pyFloat q => cases h : parseDouble t.data <;> simp [richcompareScalar, parsesAs, h]

/-- C3 (witness): an ordered comparison of an unparseable value against a
bool raises `BadDataError`. -/
theorem C3_compare_witness :
    richcompareScalar (PTree.mk "x" []) (.pyBool true) .lt = .error () :=
  (C3_compare_amended (PTree.mk "x" []) (.pyBool true) .lt).mpr (by decide)

/-- C4 (counterexample): the claim says `a | b` puts each of `b`'s
top-level keys over `a`, creating the (same-keyed) child when absent; so
merging the empty tree with a tree whose single child is keyed "x.y"
should yield a tree with top-level key "x.y".  The code instead hands the
key to `put_child`, which interprets it as a path: the result's only
top-level key is "x" (holding a nested "y"). -/
theorem C4_merge_counterexample :
    ((PyPropertyTree__nb_or (PTree.mk "" [])
        (PTree.mk "" [("x.y", PTree.mk "1" [])])).children.map Prod.fst = ["x"]) ∧
    ((claimMergeTop (PTree.mk "" [])
        (PTree.mk "" [("x.y", PTree.mk "1" [])])).children.map Prod.fst = ["x.y"]) :=
  ⟨rfl, rfl⟩

/-- C4 (amended): `a | b` returns a new tree built from a copy of `a` by
putting each top-level child of `b` over it with the child's key
interpreted as a path string; when no key of `b` contains the path
delimiter this amounts to replacing the whole first same-keyed top-level
child of `a` (or appending a new child); `a |= b` applies exactly the
same puts to `a` itself and never fails. -/
theorem C4_merge_amended (a b : PTree) :
    PyPropertyTree__nb_inplace_or a b = PyPropertyTree__nb_or a b ∧
    ((∀ kc ∈ b.children, kc.1 ≠ "" ∧ ∀ ch ∈ kc.1.toList, ch ≠ '.') →
      PyPropertyTree__nb_or a b = claimMergeTop a b) := by
  constructor
  · rw [PyPropertyTree__nb_or, PyPropertyTree__nb_inplace_or, copy_eq_self]
  · intro h
    rw [PyPropertyTree__nb_or, copy_eq_self, claimMergeTop, foldPut_top b.children a h]

/-- C4 (witness): on delimiter-free keys the merge replaces the first
same-keyed child and appends new keys. -/
theorem C4_merge_witness :
    PyPropertyTree__nb_or (PTree.mk "" [("k", PTree.mk "old" [])])
        (PTree.mk "" [("k", PTree.mk "new" []), ("j", PTree.mk "2" [])]) =
      claimMergeTop (PTree.mk "" [("k", PTree.mk "old" [])])
        (PTree.mk "" [("k", PTree.mk "new" []), ("j", PTree.mk "2" [])]) :=
  (C4_merge_amended (PTree.mk "" [("k", PTree.mk "old" [])])
    (PTree.mk "" [("k", PTree.mk "new" []), ("j", PTree.mk "2" [])])).2 (by decide)

/-- C5: `get(path)` returns the child node the path resolves to; when the
path does not resolve it raises `BadPathError` if no default was
supplied and returns the supplied default otherwise; the tree is never
modified (the model builds the outcome from the unchanged tree). -/
theorem C5_get_contract (t : PTree) (p : String) :
    (∀ c, Resolves t (segments p) c →
      ∀ hasDefault, PyPropertyTree_get t p hasDefault = .node c) ∧
    ((¬ ∃ c, Resolves t (segments p) c) →
      PyPropertyTree_get t p false = .badPath ∧ PyPropertyTree_get t p true = .dflt) := by
  constructor
  · intro c hres hasDefault
    have hw : walkPath t (segments p) = some c :=
      (walkPath_iff_resolves t c (segments p)).mpr hres
    rw [PyPropertyTree_get, get_child, hw]
  · intro hnone
    have hw : walkPath t (segments p) = none := by
      cases hwc : walkPath t (segments p) with
      | none => rfl
      | some c =>
        exact absurd ⟨c, (walkPath_iff_resolves t c (segments p)).mp hwc⟩ hnone
    rw [PyPropertyTree_get, PyPropertyTree_get, get_child, hw]
    exact ⟨rfl, rfl⟩

/-- C5 (witness): `get("a")` on a tree whose single child is keyed "a"
returns that child. -/
theorem C5_get_witness :
    PyPropertyTree_get (PTree.mk "" [("a", PTree.mk "1" [])]) "a" false =
      .node (PTree.mk "1" []) := by
  apply (C5_get_contract (PTree.mk "" [("a", PTree.mk "1" [])]) "a").1
  exact (walkPath_iff_resolves _ _ _).mp rfl

/-- C6: `erase(k)` removes exactly the children whose key equals `k`,
returns their number (which equals `count(k)` taken before the call),
afterwards `count(k) = 0`, and the children with other keys remain in
their original relative order (the remaining list is the filter of the
original); the node's own value is untouched. -/
theorem C6_erase_count (t : PTree) (s : String) :
    (PyPropertyTree_erase t s).1 = PyPropertyTree_count t s ∧
    PyPropertyTree_count (PyPropertyTree_erase t s).2 s = 0 ∧
    (PyPropertyTree_erase t s).2.children = t.children.filter (fun c => !(c.1 = s)) ∧
    (PyPropertyTree_erase t s).2.data = t.data := by
  refine ⟨eraseChildren_fst t.children s, ?_, ?_, rfl⟩
  · rw [PyPropertyTree_count, PyPropertyTree_erase]
    simp only [PTree.children_mk]
    rw [eraseChildren_snd]
    exact countKey_filter_ne t.children s
  · rw [PyPropertyTree_erase]
    simp only [PTree.children_mk]
    exact eraseChildren_snd t.children s

/-- C7: serializing a tree to JSON fails with the JSON parser error for
every tree containing a node that has both a non-empty value and at
least one child, and succeeds for every other tree. -/
theorem C7_write_json_iff (t : PTree) :
    ((∃ out, property_tree_write_json t = .ok out) ↔ ¬ HasBadNode t) ∧
    (property_tree_write_json t =
        .error "ptree contains data that cannot be represented in JSON format" ↔
      HasBadNode t) := by
  rw [← verify_json_false_iff, property_tree_write_json]
  cases hv : verify_json t <;> simp [hv]

/-- C8: `copy(t)` compares equal to `t` under the module's structural
equality (`==` on trees), and the copy is an independently rebuilt tree
(in this pure model the deep copy is provably identical to `t`, so no
operation on the copy can be observed through `t`; in the C++ code the
same deep copy into freshly owned storage is what makes mutation of the
copy invisible to `t`). -/
theorem C8_copy_eq (t : PTree) :
    richcompareTree (PyPropertyTree__copy__ t) t .eq = some true ∧
    PyPropertyTree__copy__ t = t := by
  have hc : PyPropertyTree__copy__ t = t := copy_eq_self t
  refine ⟨?_, hc⟩
  rw [richcompareTree, hc, ptree_eq_refl]

/-- C9: scalars assigned into a node are stringified — `None` as "none",
booleans as "true"/"false", ints as their decimal text, floats as their
`str()` text, strings verbatim — and stored at the path (so `get` after
`put` finds a node carrying exactly that string), while a value of any
other type raises `ValueError` and leaves the tree unchanged. -/
theorem C9_scalar_assignment (t : PTree) (p : String) :
    py_value_to_string .pyNone = some "none" ∧
    (∀ bv : Bool, py_value_to_string (.pyBool bv) = some (if bv then "true" else "false")) ∧
    (∀ n : Int, py_value_to_string (.pyInt n) = some (toString n)) ∧
    (∀ ftext : String, py_value_to_string (.pyFloat ftext) = some ftext) ∧
    (∀ sv : String, py_value_to_string (.pyStr sv) = some sv) ∧
    py_value_to_string .pyOther = none ∧
    (∀ v str, py_value_to_string v = some str →
      (PyPropertyTree_put t p (.scalar v)).2 = false ∧
      get_child (PyPropertyTree_put t p (.scalar v)).1 p = some (.mk str [])) ∧
    PyPropertyTree_put t p (.scalar .pyOther) = (t, true) := by
  refine ⟨rfl, fun bv => rfl, fun n => rfl, fun ftext => rfl, fun sv => rfl, rfl, ?_, rfl⟩
  intro v str h
  constructor
  · simp [PyPropertyTree_put, h]
  · simp only [PyPropertyTree_put, h]
    exact get_child_put_child t (.mk str []) p

/-- C9 (witness): putting the boolean `True` at path "flag" stores the
string "true" there. -/
theorem C9_scalar_witness :
    get_child (PyPropertyTree_put (PTree.mk "" []) "flag" (.scalar (.pyBool true))).1 "flag" =
      some (PTree.mk "true" []) :=
  ((C9_scalar_assignment (PTree.mk "" []) "flag").2.2.2.2.2.2.1 (.pyBool true) "true" rfl).2

/-- C10: the membership test `x in node` — for a Python string `x`, true
exactly when some direct child's key equals `x` or `x` occurs as a (not
necessarily whole) substring of the node's own value; for a tree
operand, true exactly when its value string equals some direct child's
key; false for any other operand type. -/
theorem C10_contains_iff (t : PTree) (s : String) (u : PTree) :
    (PyPropertyTree__sq_contains t (.str s) = true ↔
      (∃ c ∈ t.children, c.1 = s) ∨ s.toList <:+: t.data.toList) ∧
    (PyPropertyTree__sq_contains t (.tree u) = true ↔
      ∃ c ∈ t.children, c.1 = u.data) ∧
    PyPropertyTree__sq_contains t .other = false := by
  refine ⟨?_, ?_, rfl⟩
  · show ((findChild t.children s).isSome || infB s.toList t.data.toList) = true ↔ _
    rw [Bool.or_eq_true, findChild_isSome_iff, infB_iff]
  · show (findChild t.children u.data).isSome = true ↔ _
    rw [findChild_isSome_iff]
